import Mathlib

/-!
Verification of the text-buffer / cursor / view core of the `wedi` terminal
editor (Rust sources under `src/`).  The Rust data structures are shallowly
embedded: the rope is a `List Char`, `Vec` stacks are Lean lists, machine
`usize` arithmetic is `Nat` (all the modelled quantities are small and the
source never relies on overflow), and file-system effects are passed in as
explicit parameters (a `Bool` for write success, a `List Char` for decoded
file contents).
-/

namespace Wedi

/-- Model of `unicode_width::UnicodeWidthChar::width(ch).unwrap_or(1)` as used
throughout `view.rs` and `utils/mod.rs`.  The table covers the character
classes exercised here: combining marks U+0300..U+036F have width `Some(0)`
(hence 0), the common East-Asian wide ranges report `Some(2)`, and everything
else (ASCII, control characters via `unwrap_or(1)`) reports 1. -/
def charWidth (c : Char) : Nat :=
  let n := c.toNat
  if 0x300 ≤ n ∧ n ≤ 0x36F then 0
  else if (0x1100 ≤ n ∧ n ≤ 0x115F) ∨ (0x2E80 ≤ n ∧ n ≤ 0x303E) ∨
      (0x3041 ≤ n ∧ n ≤ 0x33FF) ∨ (0x4E00 ≤ n ∧ n ≤ 0x9FFF) ∨
      (0xAC00 ≤ n ∧ n ≤ 0xD7A3) ∨ (0xF900 ≤ n ∧ n ≤ 0xFAFF) ∨
      (0xFF00 ≤ n ∧ n ≤ 0xFF60) ∨ (0xFFE0 ≤ n ∧ n ≤ 0xFFE6) then 2
  else 1

/-- Fixed tab width, `view.rs` line 13: `const TAB_WIDTH: usize = 4;`. -/
def TAB_WIDTH : Nat := 4

/-- Display-column contribution of one character of a raw (untab-expanded)
line: a tab counts `TAB_WIDTH` columns, anything else its Unicode width.
This is the per-character step shared by `expand_tabs_and_build_map`,
`View::logical_col_to_visual_col` and the fallback scan of
`View::visual_to_logical_col`. -/
def colWidth (c : Char) : Nat :=
  if c = '\t' then TAB_WIDTH else charWidth c

/-- Model of `utils::visual_width`: sum of the Unicode widths of the
characters of an (already tab-expanded) display string. -/
def visualWidth (l : List Char) : Nat :=
  (l.map charWidth).sum

/-- Insertion of `t` at character offset `pos` of `c`; the list semantics of
`ropey::Rope::insert` (positions are always clamped to the length by the
callers in `rope_buffer.rs`, and for `pos > length` this model appends,
which the callers never exercise). -/
def insertAt : Nat → List Char → List Char → List Char
  | 0, t, c => t ++ c
  | _ + 1, t, [] => t
  | n + 1, t, x :: xs => x :: insertAt n t xs

/-- Removal of the character range `[s, e)`: the list semantics of
`ropey::Rope::remove(s..e)`. -/
def removeRange (s e : Nat) (c : List Char) : List Char :=
  c.take s ++ c.drop e

/-- Substring of the character range `[s, e)`: the list semantics of
`ropey::Rope::slice(s..e).to_string()` (and of `Rope::char(pos)` when
`e = s + 1`). -/
def sliceL (s e : Nat) (c : List Char) : List Char :=
  (c.take e).drop s

/-- Model of `buffer/history.rs` `enum Action`; `text` is the recorded string
as a character list. -/
inductive Action where
  | insert (pos : Nat) (text : List Char)
  | delete (pos : Nat) (text : List Char)
  | deleteRange (start stop : Nat) (text : List Char)
  deriving Repr, DecidableEq

/-- Model of `buffer/history.rs` `struct History`.  Rust `Vec` stacks push and
pop at the end and evict with `remove(0)`; they are modelled top-first, so the
head of `undoStack` is the most recent action and eviction of the oldest entry
is `dropLast`. -/
structure History where
  undoStack : List Action
  redoStack : List Action
  maxSize : Nat
  deriving Repr, DecidableEq

namespace History

/-- Model of `History::new`. -/
def new (maxSize : Nat) : History :=
  { undoStack := [], redoStack := [], maxSize }

/-- Model of `History::push` including its panic: when the stack is already at
or above `max_size`, `self.undo_stack.remove(0)` panics on an empty vector
(only possible when `max_size = 0`); `none` models that panic. -/
def pushChecked (h : History) (a : Action) : Option History :=
  if h.undoStack.length ≥ h.maxSize then
    match h.undoStack with
    | [] => none
    | _ :: _ =>
        some { h with undoStack := a :: h.undoStack.dropLast, redoStack := [] }
  else
    some { h with undoStack := a :: h.undoStack, redoStack := [] }

/-- Total version of `History::push`, agreeing with `pushChecked` whenever the
latter does not panic (see `pushChecked_eq_push`); used by the buffer
operations, whose history always has `max_size = 1000`. -/
def push (h : History) (a : Action) : History :=
  if h.undoStack.length ≥ h.maxSize then
    { h with undoStack := a :: h.undoStack.dropLast, redoStack := [] }
  else
    { h with undoStack := a :: h.undoStack, redoStack := [] }

/-- Model of `History::undo`: pops the undo top, pushes it on the redo stack,
and hands the action back to the buffer. -/
def undo (h : History) : Option (Action × History) :=
  match h.undoStack with
  | [] => none
  | a :: rest =>
      some (a, { h with undoStack := rest, redoStack := a :: h.redoStack })

/-- Model of `History::redo`: mirror image of `undo`. -/
def redo (h : History) : Option (Action × History) :=
  match h.redoStack with
  | [] => none
  | a :: rest =>
      some (a, { h with redoStack := rest, undoStack := a :: h.undoStack })

/-- Model of `History::clear`. -/
def clear (h : History) : History :=
  { h with undoStack := [], redoStack := [] }

/-- Model of `impl Default for History`: `Self::new(1000)`. -/
def default : History := new 1000

/-- Pushing a list of actions in order, `push` iterated left to right. -/
def pushAll (h : History) (as : List Action) : History :=
  as.foldl push h

/-- Panic-aware version of `pushAll`: stops with `none` at the first push that
panics. -/
def pushAllChecked (h : History) (as : List Action) : Option History :=
  match as with
  | [] => some h
  | a :: rest =>
      match pushChecked h a with
      | none => none
      | some h1 => pushAllChecked h1 rest

end History

/-- Decomposition of a buffer into ropey-style lines: every line keeps its
trailing `'\n'`, and a trailing `'\n'` in the buffer opens one final empty
line, so `len_lines = number of newlines + 1` (the ropey line convention used
by `RopeBuffer::line_count` / `line` / `line_to_char`). -/
def linesKeep : List Char → List (List Char)
  | [] => [[]]
  | c :: cs =>
      if c = '\n' then [c] :: linesKeep cs
      else
        match linesKeep cs with
        | [] => [[c]]
        | l :: ls => (c :: l) :: ls

/-- Model of `RopeBuffer::line_count` (ropey `len_lines`). -/
def lineCount (c : List Char) : Nat :=
  (linesKeep c).length

/-- Model of `RopeBuffer::line`: the `idx`-th line including its trailing
newline, `none` when `idx ≥ line_count`. -/
def lineGet (c : List Char) (idx : Nat) : Option (List Char) :=
  (linesKeep c).get? idx

/-- Model of `RopeBuffer::line_to_char` (ropey `line_to_char` after the
source's clamp `line_idx.min(self.line_count())`): character offset of the
start of the given line, i.e. the total length of the preceding lines. -/
def lineToChar (c : List Char) (idx : Nat) : Nat :=
  (((linesKeep c).take (min idx (lineCount c))).map List.length).sum

/-- Trailing-EOL stripping, the `while matches!(line_str.chars().last(),
Some('\n' | '\r')) { line_str.pop(); }` / `trim_end_matches(['\n','\r'])`
idiom used by `view.rs` and `cursor.rs`. -/
def stripEol (l : List Char) : List Char :=
  (l.reverse.dropWhile (fun c => c = '\n' ∨ c = '\r')).reverse

/-- Model of `buffer/rope_buffer.rs` `struct RopeBuffer`.  The rope is a
character list; `filePath` is the associated path (paths are opaque strings);
encodings are their `encoding_rs` label strings. -/
structure RopeBuffer where
  content : List Char
  filePath : Option String
  modified : Bool
  history : History
  inUndoRedo : Bool
  readEncoding : String
  saveEncoding : String
  deriving Repr, DecidableEq

namespace RopeBuffer

/-- Model of `RopeBuffer::new()`; `systemEnc` stands for the result of
`get_system_ansi_encoding()` (an environment lookup, irrelevant to the claims
below). -/
def new (systemEnc : String) : RopeBuffer :=
  { content := []
    filePath := none
    modified := false
    history := History.default
    inUndoRedo := false
    readEncoding := systemEnc
    saveEncoding := systemEnc }

/-- Model of `RopeBuffer::len_chars`. -/
def lenChars (b : RopeBuffer) : Nat := b.content.length

/-- Model of `RopeBuffer::line_count`. -/
def lineCount' (b : RopeBuffer) : Nat := lineCount b.content

/-- Model of `RopeBuffer::insert_char`: clamp `pos`, record an `Insert` action
(unless replaying history), insert, set `modified`. -/
def insertChar (b : RopeBuffer) (pos : Nat) (ch : Char) : RopeBuffer :=
  let pos := min pos b.content.length
  let hist := if ¬ b.inUndoRedo then b.history.push (.insert pos [ch])
              else b.history
  { b with content := insertAt pos [ch] b.content, history := hist,
           modified := true }

/-- Model of `RopeBuffer::insert`. -/
def insert (b : RopeBuffer) (pos : Nat) (text : List Char) : RopeBuffer :=
  let pos := min pos b.content.length
  let hist := if ¬ b.inUndoRedo then b.history.push (.insert pos text)
              else b.history
  { b with content := insertAt pos text b.content, history := hist,
           modified := true }

/-- Model of `RopeBuffer::delete_char`: no-op when `pos ≥ len_chars`; the
recorded text `self.rope.char(pos).to_string()` is the one-character slice
`[pos, pos+1)`. -/
def deleteChar (b : RopeBuffer) (pos : Nat) : RopeBuffer :=
  if pos < b.content.length then
    let deleted := sliceL pos (pos + 1) b.content
    let hist := if ¬ b.inUndoRedo then b.history.push (.delete pos deleted)
                else b.history
    { b with content := removeRange pos (pos + 1) b.content, history := hist,
             modified := true }
  else b

/-- Model of `RopeBuffer::delete_range`: no-op unless `start < end` and
`start < len_chars`; clamps `end` to the length, records the removed
substring. -/
def deleteRange (b : RopeBuffer) (start stop : Nat) : RopeBuffer :=
  if start < stop ∧ start < b.content.length then
    let stop' := min stop b.content.length
    let deleted := sliceL start stop' b.content
    let hist := if ¬ b.inUndoRedo then
                  b.history.push (.deleteRange start stop' deleted)
                else b.history
    { b with content := removeRange start stop' b.content, history := hist,
             modified := true }
  else b

/-- Model of `RopeBuffer::delete_line`: removes line `row` including its
trailing terminator (up to end of buffer for the last line), recorded as a
`DeleteRange`. -/
def deleteLine (b : RopeBuffer) (row : Nat) : RopeBuffer :=
  if row < lineCount b.content then
    let start := lineToChar b.content row
    let stop := if row + 1 < lineCount b.content
                then lineToChar b.content (row + 1)
                else b.content.length
    let deleted := sliceL start stop b.content
    let hist := if ¬ b.inUndoRedo then
                  b.history.push (.deleteRange start stop deleted)
                else b.history
    { b with content := removeRange start stop b.content, history := hist,
             modified := true }
  else b

/-- Content transformation performed by `RopeBuffer::undo` for one popped
action (the inverse of the recorded action). -/
def undoAction (a : Action) (c : List Char) : List Char :=
  match a with
  | .insert pos text => removeRange pos (pos + text.length) c
  | .delete pos text => insertAt pos text c
  | .deleteRange start _ text => insertAt start text c

/-- Content transformation performed by `RopeBuffer::redo` for one popped
action (re-applying the recorded action). -/
def redoAction (a : Action) (c : List Char) : List Char :=
  match a with
  | .insert pos text => insertAt pos text c
  | .delete pos text => removeRange pos (pos + text.length) c
  | .deleteRange start stop _ => removeRange start stop c

/-- Model of `RopeBuffer::undo`: pop via `History::undo`, apply the inverse
transformation with the reentrancy guard set (and reset before returning, so
the resulting buffer again has `in_undo_redo = false`), set `modified`, and
return the cursor offset. -/
def undo (b : RopeBuffer) : RopeBuffer × Option Nat :=
  match b.history.undo with
  | none => (b, none)
  | some (a, hist) =>
      let pos := match a with
        | .insert pos _ => pos
        | .delete pos _ => pos
        | .deleteRange start _ _ => start
      ({ b with content := undoAction a b.content, history := hist,
                modified := true, inUndoRedo := false }, some pos)

/-- Model of `RopeBuffer::redo`. -/
def redo (b : RopeBuffer) : RopeBuffer × Option Nat :=
  match b.history.redo with
  | none => (b, none)
  | some (a, hist) =>
      let pos := match a with
        | .insert pos text => pos + text.length
        | .delete pos _ => pos
        | .deleteRange start _ _ => start
      ({ b with content := redoAction a b.content, history := hist,
                modified := true, inUndoRedo := false }, some pos)

/-- Model of `RopeBuffer::save`.  `writeOk` stands for the success of
`std::fs::write`; on failure the `?` operator returns the error before
`self.modified = false` runs, so the buffer is untouched.  Encoding errors
(`had_errors`) only log a warning and never change the outcome.  The returned
`Option String` is `some` error message exactly when the source returns
`Err`. -/
def save (b : RopeBuffer) (writeOk : Bool) : RopeBuffer × Option String :=
  match b.filePath with
  | none => (b, some "No file path set")
  | some _ =>
      if writeOk then ({ b with modified := false }, none)
      else (b, some "write failed")

/-- Model of `RopeBuffer::save_as` (and of `save_to`, which differs only in
the error message): on a successful write the path is updated and `modified`
cleared; on failure the `?` returns first and nothing changes. -/
def saveAs (b : RopeBuffer) (path : String) (writeOk : Bool) :
    RopeBuffer × Option String :=
  if writeOk then
    ({ b with filePath := some path, modified := false }, none)
  else (b, some "Failed to write file")

/-- Model of `RopeBuffer::set_read_encoding`. -/
def setReadEncoding (b : RopeBuffer) (enc : String) : RopeBuffer :=
  { b with readEncoding := enc }

/-- Model of `RopeBuffer::set_save_encoding`: changing the save encoding
marks the buffer modified. -/
def setSaveEncoding (b : RopeBuffer) (enc : String) : RopeBuffer :=
  { b with saveEncoding := enc, modified := true }

/-- Model of `RopeBuffer::change_encoding`: sets both encodings without
touching `modified`. -/
def changeEncoding (b : RopeBuffer) (enc : String) : RopeBuffer :=
  { b with readEncoding := enc, saveEncoding := enc }

/-- Model of `RopeBuffer::reload_with_encoding` on a buffer that has a file
path, for a successful read: `diskContent` is the decoded file text produced
by `from_file_with_encoding`; content is replaced, `modified` cleared and the
history cleared.  With no path (or a failed read) the source bails with an
error and changes nothing, which the `none`/failure branch mirrors. -/
def reload (b : RopeBuffer) (enc : String) (readOk : Bool)
    (diskContent : List Char) : RopeBuffer × Option String :=
  match b.filePath with
  | none => (b, some "No file to reload")
  | some _ =>
      if readOk then
        ({ b with content := diskContent, readEncoding := enc,
                  saveEncoding := enc, modified := false,
                  history := b.history.clear }, none)
      else (b, some "Failed to read file")

/-- Model of `RopeBuffer::from_file_with_encoding` for an existing, readable
file: `decoded` is the decoded text (after BOM stripping / lossy
replacement), `detectedEnc`/`saveEnc` the chosen encodings; the buffer starts
unmodified with a fresh default history. -/
def fromFileExisting (path : String) (decoded : List Char)
    (detectedEnc saveEnc : String) : RopeBuffer :=
  { content := decoded
    filePath := some path
    modified := false
    history := History.default
    inUndoRedo := false
    readEncoding := detectedEnc
    saveEncoding := saveEnc }

/-- Model of `RopeBuffer::from_file_with_encoding` when the file does not
exist: an empty buffer that is already marked modified. -/
def fromFileNew (path : String) (enc saveEnc : String) : RopeBuffer :=
  { content := []
    filePath := some path
    modified := true
    history := History.default
    inUndoRedo := false
    readEncoding := enc
    saveEncoding := saveEnc }

end RopeBuffer

/-- Length of line `row` without its terminator, `Cursor::line_len` in
`cursor.rs` (0 for an out-of-range row). -/
def lineLen (c : List Char) (row : Nat) : Nat :=
  match lineGet c row with
  | some l => (stripEol l).length
  | none => 0

/-- Helper recursion for `expand_tabs_and_build_map` (`view.rs`): `vc` is the
running visual column; each character first records its starting visual
column, then a tab appends `TAB_WIDTH` spaces and anything else appends
itself with its Unicode width; the final column is appended to the map. -/
def expandTabsGo (vc : Nat) : List Char → List Char × List Nat
  | [] => ([], [vc])
  | ch :: rest =>
      let p := expandTabsGo (vc + colWidth ch) rest
      ((if ch = '\t' then List.replicate TAB_WIDTH ' ' else [ch]) ++ p.1,
        vc :: p.2)

/-- Model of `expand_tabs_and_build_map`: the expanded display string and the
`logical_to_visual` array (entry `i` = visual column before character `i`;
one trailing entry for the end of the line). -/
def expandTabsAndBuildMap (line : List Char) : List Char × List Nat :=
  expandTabsGo 0 line

/-- Helper recursion for `wrap_line` (`view.rs`): `cur`/`curW` are the
current visual sub-line and its width; when adding a character would exceed
`maxW` and `cur` is non-empty, `cur` is emitted and a new sub-line starts. -/
def wrapGo (maxW : Nat) (cur : List Char) (curW : Nat) :
    List Char → List (List Char)
  | [] => if cur.isEmpty then [] else [cur]
  | ch :: rest =>
      let w := charWidth ch
      if curW + w > maxW ∧ ¬ cur.isEmpty then
        cur :: wrapGo maxW [ch] w rest
      else
        wrapGo maxW (cur ++ [ch]) (curW + w) rest

/-- Model of `wrap_line`: greedy packing of an (already tab-expanded) display
string into visual sub-lines of width at most `maxW`; width 0 and the empty
result degenerate to one empty sub-line. -/
def wrapLine (line : List Char) (maxW : Nat) : List (List Char) :=
  if maxW = 0 then [[]]
  else
    let r := wrapGo maxW [] 0 line
    if r.isEmpty then [[]] else r

/-- Model of `struct LineLayout` (`view.rs`). -/
structure LineLayout where
  visualLines : List (List Char)
  visualHeight : Nat
  logicalToVisual : List Nat
  deriving Repr, DecidableEq

/-- Model of `LineLayout::new` applied to an already EOL-stripped line
string, for a given available width. -/
def LineLayout.ofLine (line : List Char) (availableWidth : Nat) : LineLayout :=
  let p := expandTabsAndBuildMap line
  let vls := wrapLine p.1 availableWidth
  { visualLines := vls, visualHeight := vls.length, logicalToVisual := p.2 }

/-- Model of `struct View` (`view.rs`); the terminal handle is dropped and
the cache is the `line_layout_cache` vector of optional layouts, indexed from
`offset_row`. -/
structure View where
  offsetRow : Nat
  showLineNumbers : Bool
  screenRows : Nat
  screenCols : Nat
  lineLayoutCache : List (Option LineLayout)
  deriving Repr, DecidableEq

namespace View

/-- Model of `View::calculate_line_number_width`. -/
def calculateLineNumberWidth (v : View) (c : List Char) : Nat :=
  if v.showLineNumbers then (toString (lineCount c)).length + 1 else 0

/-- Model of `View::get_available_width`. -/
def getAvailableWidth (v : View) (c : List Char) : Nat :=
  v.screenCols - calculateLineNumberWidth v c - 1

/-- Cache lookup `self.line_layout_cache.get(cache_index).and_then(|l|
l.as_ref())` with `cache_index = row.saturating_sub(self.offset_row)`. -/
def cacheEntry (v : View) (row : Nat) : Option LineLayout :=
  (v.lineLayoutCache.get? (row - v.offsetRow)).join

/-- Model of `View::calculate_visual_lines_for_row`: out-of-range rows give
one empty sub-line; a cached layout is used when present; otherwise the line
is EOL-stripped, tab-expanded and wrapped at the available width. -/
def calculateVisualLinesForRow (v : View) (c : List Char) (row : Nat) :
    List (List Char) :=
  if row ≥ lineCount c then [[]]
  else
    match cacheEntry v row with
    | some layout => layout.visualLines
    | none =>
        match lineGet c row with
        | some l =>
            wrapLine (expandTabsAndBuildMap (stripEol l)).1
              (getAvailableWidth v c)
        | none => wrapLine [] (getAvailableWidth v c)

/-- Model of `View::logical_col_to_visual_col`: scan the line, stopping at
`logical_col`, adding `TAB_WIDTH` for tabs and the Unicode width
otherwise. -/
def logicalColToVisualCol : List Char → Nat → Nat
  | _, 0 => 0
  | [], _ + 1 => 0
  | ch :: rest, n + 1 => colWidth ch + logicalColToVisualCol rest n

/-- Total visual width of the sub-lines before index `k`, the
`accumulated_width` loops of `visual_to_logical_col`. -/
def accumWidths (vlines : List (List Char)) (k : Nat) : Nat :=
  ((vlines.take k).map visualWidth).sum

/-- Scan of the cached branch of `View::visual_to_logical_col`: walk the
`logical_to_visual` array remembering the index of the last entry that does
not exceed `total`, stopping at the first that does. -/
def cachedScanGo (total : Nat) (idx lc : Nat) : List Nat → Nat
  | [] => lc
  | vcol :: rest =>
      if vcol > total then lc else cachedScanGo total (idx + 1) idx rest

/-- Scan of the fallback branch of `View::visual_to_logical_col`: walk the
raw line accumulating column widths until the accumulated width reaches
`total`, counting characters. -/
def fallbackScanGo (total : Nat) (cv lc : Nat) : List Char → Nat
  | [] => lc
  | ch :: rest =>
      if cv ≥ total then lc
      else fallbackScanGo total (cv + colWidth ch) (lc + 1) rest

/-- Cached branch of `View::visual_to_logical_col`, computed from a layout. -/
def vtlCachedLayout (layout : LineLayout) (visualLineIndex visualCol : Nat) :
    Nat :=
  if visualLineIndex ≥ layout.visualLines.length then 0
  else
    let acc := accumWidths layout.visualLines visualLineIndex
    let colInVisual :=
      min visualCol (visualWidth (layout.visualLines.getD visualLineIndex []))
    cachedScanGo (acc + colInVisual) 0 0 layout.logicalToVisual

/-- Fallback branch of `View::visual_to_logical_col`: recompute the visual
sub-lines, form the same total visual column, then re-scan the EOL-stripped
line. -/
def vtlFallback (v : View) (c : List Char) (row visualLineIndex visualCol : Nat) :
    Nat :=
  let vlines := calculateVisualLinesForRow v c row
  if visualLineIndex ≥ vlines.length then 0
  else
    let acc := accumWidths vlines visualLineIndex
    let colInVisual := min visualCol (visualWidth (vlines.getD visualLineIndex []))
    let total := acc + colInVisual
    match lineGet c row with
    | some l => fallbackScanGo total 0 0 (stripEol l)
    | none => 0

/-- Model of `View::visual_to_logical_col`: the cached branch when the row's
layout is in the cache, the fallback branch otherwise. -/
def visualToLogicalCol (v : View) (c : List Char)
    (row visualLineIndex visualCol : Nat) : Nat :=
  match cacheEntry v row with
  | some layout => vtlCachedLayout layout visualLineIndex visualCol
  | none => vtlFallback v c row visualLineIndex visualCol

end View

/-- Model of `struct Cursor` (`cursor.rs`). -/
structure Cursor where
  row : Nat
  col : Nat
  visualLineIndex : Nat
  desiredVisualCol : Nat
  deriving Repr, DecidableEq

namespace Cursor

/-- Structural-fuel form of the `while target_row < max_row && visual_count <
effective_rows` loop of `Cursor::move_page_down`.  The Rust loop terminates
because `target_row` strictly increases towards `max_row`, so `maxRow -
target` is a valid fuel; the loop condition is re-checked on every step and
when the fuel runs out (`target = maxRow`) the condition is false anyway, so
the fuel never alters the result. -/
def pageDownGo (h : Nat → Nat) (maxRow eff : Nat) :
    Nat → Nat → Nat → Nat
  | 0, target, _ => target
  | fuel + 1, target, vc =>
      if target < maxRow ∧ vc < eff then
        pageDownGo h maxRow eff fuel (target + 1) (vc + h target)
      else target

/-- The accumulation loop of `Cursor::move_page_down`: `h r` is the visual
height of logical row `r` (`view.calculate_visual_lines_for_row(buffer,
r).len()`).  Returns the final `target_row`. -/
def pageDownLoop (h : Nat → Nat) (maxRow eff target vc : Nat) : Nat :=
  pageDownGo h maxRow eff (maxRow - target) target vc

/-- Model of `Cursor::update_logical_col_from_visual`: resolve `col` from
`desired_visual_col` through `visual_to_logical_col` and clamp to the line
length. -/
def updateLogicalColFromVisual (cur : Cursor) (c : List Char) (v : View) :
    Cursor :=
  let col := v.visualToLogicalCol c cur.row cur.visualLineIndex
    cur.desiredVisualCol
  { cur with col := min col (lineLen c cur.row) }

/-- Model of `Cursor::move_page_down`: accumulate visual heights row by row
until `effective_rows` visual rows are traversed or the last row is reached,
then land on that logical row with `visual_line_index = 0` and re-resolve the
column. -/
def movePageDown (cur : Cursor) (c : List Char) (v : View) (effRows : Nat) :
    Cursor :=
  let maxRow := lineCount c - 1
  let target := pageDownLoop
    (fun r => (v.calculateVisualLinesForRow c r).length) maxRow effRows
    cur.row 0
  let cur' := { cur with row := min target maxRow, visualLineIndex := 0 }
  updateLogicalColFromVisual cur' c v

end Cursor

/-- The public mutation operations of `RopeBuffer` named in the undo/redo
inverse law. -/
inductive EditOp where
  | insertChar (pos : Nat) (ch : Char)
  | insertText (pos : Nat) (text : List Char)
  | deleteChar (pos : Nat)
  | deleteRange (start stop : Nat)
  | deleteLine (row : Nat)
  deriving Repr, DecidableEq

/-- Dispatch of an `EditOp` to the corresponding `RopeBuffer` method. -/
def applyEdit (b : RopeBuffer) : EditOp → RopeBuffer
  | .insertChar pos ch => b.insertChar pos ch
  | .insertText pos text => b.insert pos text
  | .deleteChar pos => b.deleteChar pos
  | .deleteRange s t => b.deleteRange s t
  | .deleteLine row => b.deleteLine row

/-- Application of a whole edit sequence, first edit first. -/
def applyEdits (b : RopeBuffer) (es : List EditOp) : RopeBuffer :=
  es.foldl applyEdit b

/-- Whether an edit actually mutates the buffer (and hence records exactly
one history action): inserts always do; the delete operations are no-ops
outside their guards. -/
def editEffective (b : RopeBuffer) : EditOp → Bool
  | .insertChar _ _ => true
  | .insertText _ _ => true
  | .deleteChar pos => decide (pos < b.content.length)
  | .deleteRange s t => decide (s < t ∧ s < b.content.length)
  | .deleteLine row => decide (row < lineCount b.content)

/-- Every edit of the sequence is effective in the state where it runs. -/
def allEffective : RopeBuffer → List EditOp → Bool
  | _, [] => true
  | b, e :: es => editEffective b e && allEffective (applyEdit b e) es

/-- The history action `applyEdit b e` records (meaningful when the edit is
effective). -/
def recordedAction (b : RopeBuffer) : EditOp → Action
  | .insertChar pos ch => .insert (min pos b.content.length) [ch]
  | .insertText pos text => .insert (min pos b.content.length) text
  | .deleteChar pos => .delete pos (sliceL pos (pos + 1) b.content)
  | .deleteRange s t =>
      .deleteRange s (min t b.content.length)
        (sliceL s (min t b.content.length) b.content)
  | .deleteLine row =>
      let start := lineToChar b.content row
      let stop := if row + 1 < lineCount b.content
                  then lineToChar b.content (row + 1)
                  else b.content.length
      .deleteRange start stop (sliceL start stop b.content)

/-- Iterated `RopeBuffer::undo` (result buffer only). -/
def undoN : Nat → RopeBuffer → RopeBuffer
  | 0, b => b
  | n + 1, b => undoN n (b.undo).1

/-- Iterated `RopeBuffer::redo` (result buffer only). -/
def redoN : Nat → RopeBuffer → RopeBuffer
  | 0, b => b
  | n + 1, b => redoN n (b.redo).1

/-- Undo chain in stack order: from final content `c1`, undoing the actions
of `ras` front to back reaches `c0`, and each undo is inverted by the
corresponding redo. -/
def RChain : List Char → List Action → List Char → Prop
  | c1, [], c0 => c0 = c1
  | c1, a :: ras, c0 =>
      RopeBuffer.redoAction a (RopeBuffer.undoAction a c1) = c1 ∧
      RChain (RopeBuffer.undoAction a c1) ras c0

/-- Redo chain in application order: from `c0`, redoing the actions of `as`
front to back reaches `c1`. -/
def FChain : List Char → List Action → List Char → Prop
  | c0, [], c1 => c1 = c0
  | c0, a :: as, c1 => FChain (RopeBuffer.redoAction a c0) as c1

/-- All `RopeBuffer` operations visible to the modified-flag invariant (the
mutators, undo/redo, the save family, the encoding setters and reload).
File-system outcomes (`writeOk`, `readOk`, `diskContent`) are carried as
parameters of the operation. -/
inductive BufOp where
  | insertChar (pos : Nat) (ch : Char)
  | insertText (pos : Nat) (text : List Char)
  | deleteChar (pos : Nat)
  | deleteRange (start stop : Nat)
  | deleteLine (row : Nat)
  | undo
  | redo
  | save (writeOk : Bool)
  | saveAs (path : String) (writeOk : Bool)
  | setReadEncoding (enc : String)
  | setSaveEncoding (enc : String)
  | changeEncoding (enc : String)
  | reload (enc : String) (readOk : Bool) (diskContent : List Char)

/-- A `RopeBuffer` together with the specification ghost `savedContent`: the
content as of the last successful save (or of the load that created the
buffer).  The ghost is not part of the Rust state; it is the reference point
the `modified` flag is specified against. -/
structure TrackedBuffer where
  buf : RopeBuffer
  savedContent : List Char

namespace TrackedBuffer

/-- A freshly created or freshly loaded buffer: its content is the last-saved
reference point (for `RopeBuffer::new` both are empty; for
`from_file_with_encoding` on an existing file both are the decoded text; for
a non-existing file the buffer is marked modified, so the reference point is
irrelevant). -/
def ofLoad (b : RopeBuffer) : TrackedBuffer :=
  { buf := b, savedContent := b.content }

/-- One operation on the tracked buffer; on a successful save or reload the
ghost becomes the new on-disk content (which then equals the buffer
content). -/
def applyOp (t : TrackedBuffer) : BufOp → TrackedBuffer
  | .insertChar pos ch => { t with buf := t.buf.insertChar pos ch }
  | .insertText pos text => { t with buf := t.buf.insert pos text }
  | .deleteChar pos => { t with buf := t.buf.deleteChar pos }
  | .deleteRange s e => { t with buf := t.buf.deleteRange s e }
  | .deleteLine row => { t with buf := t.buf.deleteLine row }
  | .undo => { t with buf := (t.buf.undo).1 }
  | .redo => { t with buf := (t.buf.redo).1 }
  | .save ok =>
      let r := t.buf.save ok
      { buf := r.1,
        savedContent := if r.2.isNone then r.1.content else t.savedContent }
  | .saveAs p ok =>
      let r := t.buf.saveAs p ok
      { buf := r.1,
        savedContent := if r.2.isNone then r.1.content else t.savedContent }
  | .setReadEncoding enc => { t with buf := t.buf.setReadEncoding enc }
  | .setSaveEncoding enc => { t with buf := t.buf.setSaveEncoding enc }
  | .changeEncoding enc => { t with buf := t.buf.changeEncoding enc }
  | .reload enc ok d =>
      let r := t.buf.reload enc ok d
      { buf := r.1,
        savedContent := if r.2.isNone then r.1.content else t.savedContent }

/-- A whole operation sequence, first operation first. -/
def applyOps (t : TrackedBuffer) (ops : List BufOp) : TrackedBuffer :=
  ops.foldl applyOp t

/-- The modified-flag invariant: an unmodified buffer holds exactly the
last-saved content. -/
def ModInv (t : TrackedBuffer) : Prop :=
  t.buf.modified = false → t.buf.content = t.savedContent

end TrackedBuffer

/-- Combining grave accent U+0300, a zero-width character
(`UnicodeWidthChar::width` reports `Some(0)` for combining marks). -/
def combChar : Char := Char.ofNat 0x300

/-- Concrete buffer used by scenario witnesses: content `"abcde"` with an
associated path. -/
def bufEx : RopeBuffer :=
  { content := "abcde".toList
    filePath := some "f.txt"
    modified := true
    history := History.default
    inUndoRedo := false
    readEncoding := "UTF-8"
    saveEncoding := "UTF-8" }

/-- Buffer for the page-down scenario: a 9-character first line that wraps
into 3 visual sub-lines at width 3, followed by a second line. -/
def pageBuf : List Char := "aaaaaaaaa\nb".toList

/-- View for the page-down scenario: line numbers off, 4 screen columns
(available width 3), freshly invalidated cache. -/
def pageView : View :=
  { offsetRow := 0, showLineNumbers := false, screenRows := 2,
    screenCols := 4, lineLayoutCache := [] }

/-- One-tab buffer for the cache/fallback comparison. -/
def tabBuf : List Char := ['\t']

/-- View over `tabBuf` whose cache holds row 0's layout (as `render`
populates it: `LineLayout::new` at the view's available width, 10). -/
def tabViewCached : View :=
  { offsetRow := 0, showLineNumbers := false, screenRows := 5,
    screenCols := 11, lineLayoutCache := [some (LineLayout.ofLine ['\t'] 10)] }

/-- Same view as `tabViewCached` but with an empty (fully invalidated)
cache. -/
def tabViewEmpty : View :=
  { offsetRow := 0, showLineNumbers := false, screenRows := 5,
    screenCols := 11, lineLayoutCache := [] }

/-- Buffer whose single line is `'a'` followed by a zero-width combining
mark. -/
def combBuf : List Char := ['a', combChar]

/-- View over `combBuf` with row 0's layout cached at the available width
10. -/
def combViewCached : View :=
  { offsetRow := 0, showLineNumbers := false, screenRows := 5,
    screenCols := 11,
    lineLayoutCache := [some (LineLayout.ofLine ['a', combChar] 10)] }

/-- Buffer reached by one real edit on a fresh buffer: `insert_char(0,'a')`;
its history holds that one action. -/
def noopBuf : RopeBuffer := (RopeBuffer.new "UTF-8").insertChar 0 'a'

theorem insertAt_nil_right : ∀ (n : Nat) (c : List Char), insertAt n [] c = c
  | 0, _ => rfl
  | _ + 1, [] => rfl
  | n + 1, x :: xs => by simp [insertAt, insertAt_nil_right n xs]

theorem removeRange_insertAt (t : List Char) :
    ∀ (pos : Nat) (c : List Char), pos ≤ c.length →
      removeRange pos (pos + t.length) (insertAt pos t c) = c := by
  intro pos
  induction pos with
  | zero =>
      intro c _
      simp [insertAt, removeRange, List.drop_append]
  | succ n ih =>
      intro c hc
      cases c with
      | nil => simp at hc
      | cons x xs =>
          simp only [insertAt, removeRange, Nat.succ_add, List.take_succ_cons,
            List.drop_succ_cons, List.cons_append]
          have := ih xs (by simpa using hc)
          simpa [removeRange] using congrArg (x :: ·) this

theorem sliceL_length (s e : Nat) (c : List Char) :
    (sliceL s e c).length = min e c.length - s := by
  simp [sliceL]

theorem insertAt_sliceL_removeRange :
    ∀ (s : Nat) (e : Nat) (c : List Char), s ≤ e → e ≤ c.length →
      insertAt s (sliceL s e c) (removeRange s e c) = c := by
  intro s
  induction s with
  | zero =>
      intro e c _ _
      simp [sliceL, removeRange, insertAt]
  | succ n ih =>
      intro e c hse hec
      cases c with
      | nil =>
          simp at hec
          omega
      | cons x xs =>
          cases e with
          | zero => omega
          | succ m =>
              simp only [sliceL, removeRange, List.take_succ_cons,
                List.drop_succ_cons, List.cons_append, insertAt]
              have := ih m xs (by omega) (by simpa using hec)
              simpa [sliceL, removeRange] using congrArg (x :: ·) this

theorem removeRange_insertAt_sliceL (s e : Nat) (c : List Char)
    (hse : s ≤ e) (hec : e ≤ c.length) :
    removeRange s e (insertAt s (sliceL s e c) (removeRange s e c)) =
      removeRange s e c := by
  rw [insertAt_sliceL_removeRange s e c hse hec]

namespace History

theorem pushChecked_eq_push (h : History) (a : Action) (hm : 1 ≤ h.maxSize) :
    pushChecked h a = some (push h a) := by
  unfold pushChecked push
  by_cases hlen : h.undoStack.length ≥ h.maxSize
  · cases hstack : h.undoStack with
    | nil =>
        rw [hstack] at hlen
        simp at hlen
        omega
    | cons x xs =>
        simp only [hlen, hstack]
        split <;> rfl
  · simp [hlen]

theorem push_undoStack_of_lt (h : History) (a : Action)
    (hlt : h.undoStack.length < h.maxSize) :
    (push h a).undoStack = a :: h.undoStack := by
  unfold push
  have : ¬ h.undoStack.length ≥ h.maxSize := by omega
  simp [this]

theorem push_redoStack (h : History) (a : Action) :
    (push h a).redoStack = [] := by
  unfold push
  by_cases hlen : h.undoStack.length ≥ h.maxSize <;> simp [hlen]

theorem push_maxSize (h : History) (a : Action) :
    (push h a).maxSize = h.maxSize := by
  unfold push
  by_cases hlen : h.undoStack.length ≥ h.maxSize <;> simp [hlen]

theorem pushAllChecked_eq_pushAll :
    ∀ (as : List Action) (h : History), 1 ≤ h.maxSize →
      pushAllChecked h as = some (pushAll h as)
  | [], h, _ => rfl
  | a :: as, h, hm => by
      unfold pushAllChecked pushAll
      rw [pushChecked_eq_push h a hm]
      have hm' : 1 ≤ (push h a).maxSize := by rw [push_maxSize]; exact hm
      simpa [pushAll] using pushAllChecked_eq_pushAll as (push h a) hm'

end History

theorem linesKeep_ne_nil (c : List Char) : linesKeep c ≠ [] := by
  cases c with
  | nil => simp [linesKeep]
  | cons x xs =>
      unfold linesKeep
      by_cases hx : x = '\n'
      · simp [hx]
      · simp only [hx, if_false]
        cases linesKeep xs <;> simp

theorem linesKeep_flatten : ∀ c : List Char, (linesKeep c).flatten = c
  | [] => by simp [linesKeep]
  | c :: cs => by
      unfold linesKeep
      by_cases hc : c = '\n'
      · simp [hc, linesKeep_flatten cs]
      · simp only [hc, if_false]
        have h := linesKeep_flatten cs
        cases hl : linesKeep cs with
        | nil => exact absurd hl (linesKeep_ne_nil cs)
        | cons l ls =>
            rw [hl] at h
            simpa using h

theorem sum_map_take_le {α : Type} (f : α → Nat) (ls : List α) (k : Nat) :
    ((ls.take k).map f).sum ≤ (ls.map f).sum := by
  have hsplit : (ls.map f).sum =
      ((ls.take k).map f).sum + ((ls.drop k).map f).sum := by
    rw [← List.sum_append, ← List.map_append, List.take_append_drop]
  omega

theorem lineToChar_le_length (c : List Char) (idx : Nat) :
    lineToChar c idx ≤ c.length := by
  unfold lineToChar
  have hjoin := linesKeep_flatten c
  have h1 := sum_map_take_le List.length (linesKeep c) (min idx (lineCount c))
  have h2 : ((linesKeep c).map List.length).sum = c.length := by
    rw [← List.length_flatten, hjoin]
  omega

theorem lineToChar_mono (c : List Char) {i j : Nat} (hij : i ≤ j) :
    lineToChar c i ≤ lineToChar c j := by
  unfold lineToChar
  have hmin : min i (lineCount c) ≤ min j (lineCount c) := by omega
  have htt : (linesKeep c).take (min i (lineCount c)) =
      ((linesKeep c).take (min j (lineCount c))).take (min i (lineCount c)) := by
    rw [List.take_take, Nat.min_eq_left hmin]
  rw [htt]
  exact sum_map_take_le _ _ _

theorem take_append_take {α : Type} (xs ys : List α) (m : Nat) :
    (xs ++ ys.take m).take m = (xs ++ ys).take m := by
  rw [List.take_append_eq_append_take, List.take_append_eq_append_take,
    List.take_take]
  congr 1
  rw [inf_eq_min, Nat.min_eq_left (by omega)]

theorem push_undoStack_take (h : History) (a : Action)
    (hlen : h.undoStack.length ≤ h.maxSize) (hm : 1 ≤ h.maxSize) :
    (History.push h a).undoStack = (a :: h.undoStack).take h.maxSize := by
  unfold History.push
  by_cases hfull : h.undoStack.length ≥ h.maxSize
  · have heq : h.undoStack.length = h.maxSize := by omega
    rw [if_pos hfull]
    show a :: h.undoStack.dropLast = (a :: h.undoStack).take h.maxSize
    obtain ⟨m, hmm⟩ : ∃ m, h.maxSize = m + 1 := ⟨h.maxSize - 1, by omega⟩
    rw [hmm, List.take_succ_cons, List.dropLast_eq_take, heq, hmm,
      Nat.add_sub_cancel]
  · rw [if_neg hfull]
    show a :: h.undoStack = (a :: h.undoStack).take h.maxSize
    rw [List.take_of_length_le]
    simp only [List.length_cons]
    omega

theorem pushAll_undoStack :
    ∀ (as : List Action) (h : History), 1 ≤ h.maxSize →
      h.undoStack.length ≤ h.maxSize →
      (History.pushAll h as).undoStack =
        (as.reverse ++ h.undoStack).take h.maxSize
  | [], h, _, hlen => by
      simp only [History.pushAll, List.foldl_nil, List.reverse_nil,
        List.nil_append]
      rw [List.take_of_length_le hlen]
  | a :: as, h, hm, hlen => by
      have hstep := push_undoStack_take h a hlen hm
      have hlen' : (History.push h a).undoStack.length ≤
          (History.push h a).maxSize := by
        rw [hstep, History.push_maxSize]
        simp only [List.length_take]
        omega
      have hm' : 1 ≤ (History.push h a).maxSize := by
        rw [History.push_maxSize]; exact hm
      have ih := pushAll_undoStack as (History.push h a) hm' hlen'
      show (History.pushAll (History.push h a) as).undoStack = _
      rw [ih, History.push_maxSize, hstep, take_append_take,
        List.reverse_cons, List.append_assoc]
      rfl

/-- C5 counterexample: with `max_size = 0` the very first push panics
(`remove(0)` on the empty undo stack), so pushing `max_size + k = 1` actions
does not leave `max_size = 0` entries — there is no resulting history at
all. -/
theorem C5_counterexample :
    History.pushAllChecked (History.new 0) [Action.insert 0 ['a']] = none := by
  rfl

/-- C5 (amended: `max_size ≥ 1`): pushing `max_size + k` actions into
`History::new(max_size)` panics for no push, leaves exactly `max_size`
entries on the undo stack — precisely the latest `max_size` actions, the
oldest `k` discarded (the stack is modelled top-first, so it equals the
reverse of `as.drop k`) — and every push clears the redo stack. -/
theorem C5_history_bound (max k : Nat) (as : List Action)
    (hm : 1 ≤ max) (hlen : as.length = max + k) :
    History.pushAllChecked (History.new max) as =
      some (History.pushAll (History.new max) as) ∧
    (History.pushAll (History.new max) as).undoStack = (as.drop k).reverse ∧
    (History.pushAll (History.new max) as).undoStack.length = max ∧
    ∀ (h : History) (a : Action), (History.push h a).redoStack = [] := by
  have hstack := pushAll_undoStack as (History.new max) hm
    (by simp [History.new])
  have hstack' : (History.pushAll (History.new max) as).undoStack =
      (as.drop k).reverse := by
    rw [hstack]
    show (as.reverse ++ []).take max = _
    rw [List.append_nil, List.take_reverse]
    have hk : as.length - max = k := by omega
    rw [hk]
  refine ⟨History.pushAllChecked_eq_pushAll as _ hm, hstack', ?_,
    fun h a => History.push_redoStack h a⟩
  rw [hstack']
  simp only [List.length_reverse, List.length_drop]
  omega

/-- C5 witness: three pushes into a history of capacity 2 keep the last two
actions (top-first) and an empty redo stack. -/
theorem C5_witness :
    1 ≤ 2 ∧
    (History.pushAll (History.new 2)
      [Action.insert 0 ['a'], Action.insert 1 ['b'],
       Action.insert 2 ['c']]).undoStack =
      [Action.insert 2 ['c'], Action.insert 1 ['b']] := by
  refine ⟨by decide, ?_⟩
  have h := (C5_history_bound 2 1
    [Action.insert 0 ['a'], Action.insert 1 ['b'], Action.insert 2 ['c']]
    (by decide) (by decide)).2.1
  rw [h]
  decide

/-- C10: `History::push` never panics when `max_size ≥ 1` (for any stack
contents, hence for any history constructed with `max_size ≥ 1`), and on a
history constructed with `max_size = 0` the very first push panics, because
`self.undo_stack.remove(0)` runs on an empty vector. -/
theorem C10_push_panic_boundary :
    (∀ (h : History) (a : Action), 1 ≤ h.maxSize →
      (History.pushChecked h a).isSome = true) ∧
    ∀ (a : Action), History.pushChecked (History.new 0) a = none := by
  constructor
  · intro h a hm
    rw [History.pushChecked_eq_push h a hm]
    rfl
  · intro a
    rfl

/-- C10 witness: a concrete push with `max_size = 1` succeeds. -/
theorem C10_witness :
    (History.pushChecked (History.new 1) (Action.insert 0 ['a'])).isSome
      = true :=
  C10_push_panic_boundary.1 (History.new 1) (Action.insert 0 ['a'])
    (by decide)

/-- C3 counterexample: laying out `"a\tb"` does not produce `"a   b"` with
visual width 5 — the tab is not expanded to the next tab stop. -/
theorem C3_counterexample :
    ¬ ((expandTabsAndBuildMap "a\tb".toList).1 = "a   b".toList ∧
       visualWidth (expandTabsAndBuildMap "a\tb".toList).1 = 5) := by
  decide

/-- C3 (amended): a tab expands to exactly `TAB_WIDTH = 4` spaces regardless
of the current column, so `"a\tb"` displays as `"a    b"` (4 spaces) with
total visual width 6 and logical-to-visual map `[0, 1, 5, 6]`. -/
theorem C3_tab_expansion :
    (expandTabsAndBuildMap "a\tb".toList).1 = "a    b".toList ∧
    visualWidth (expandTabsAndBuildMap "a\tb".toList).1 = 6 ∧
    (expandTabsAndBuildMap "a\tb".toList).2 = [0, 1, 5, 6] := by
  decide

/-- C7: `delete_range(start, end)` with `start ≥ end` or `start ≥ length` is
a complete no-op (same buffer, hence same content, modified flag and
history); otherwise `end` is clamped to the length, the removed substring is
recorded as a `DeleteRange` (when not replaying history), the range is
removed and `modified` is set. -/
theorem C7_delete_range (b : RopeBuffer) (s e : Nat) :
    ((s ≥ e ∨ s ≥ b.content.length) → b.deleteRange s e = b) ∧
    (s < e → s < b.content.length → b.inUndoRedo = false →
      (b.deleteRange s e).content =
        removeRange s (min e b.content.length) b.content ∧
      (b.deleteRange s e).modified = true ∧
      (b.deleteRange s e).history = b.history.push
        (.deleteRange s (min e b.content.length)
          (sliceL s (min e b.content.length) b.content))) := by
  constructor
  · intro hno
    unfold RopeBuffer.deleteRange
    have hcond : ¬ (s < e ∧ s < b.content.length) := by
      rcases hno with h | h <;> omega
    simp [hcond]
  · intro h1 h2 h3
    unfold RopeBuffer.deleteRange
    have hcond : s < e ∧ s < b.content.length := ⟨h1, h2⟩
    simp [hcond, h3]

/-- C7 witness: on `"abcde"`, `delete_range(3, 2)` is a no-op and
`delete_range(1, 3)` sets the modified flag. -/
theorem C7_witness :
    RopeBuffer.deleteRange bufEx 3 2 = bufEx ∧
    (RopeBuffer.deleteRange bufEx 1 3).modified = true :=
  ⟨(C7_delete_range bufEx 3 2).1 (by decide),
   ((C7_delete_range bufEx 1 3).2 (by decide) (by decide) rfl).2.1⟩

/-- C8: when the disk write fails, `save()` returns an error and the buffer
is completely unchanged — in particular the content is still in memory and
the modified flag keeps its value; `modified` is cleared exactly on the
successful write, which also leaves the content untouched. -/
theorem C8_save_failure (b : RopeBuffer) (p : String)
    (hp : b.filePath = some p) :
    (b.save false).1 = b ∧
    (b.save false).2.isSome = true ∧
    (b.save false).1.modified = b.modified ∧
    (b.save false).1.content = b.content ∧
    (b.save true).1.modified = false ∧
    (b.save true).1.content = b.content := by
  unfold RopeBuffer.save
  rw [hp]
  simp

/-- C8 witness: concrete failed and successful saves of `bufEx`. -/
theorem C8_witness :
    ((bufEx.save false).1 = bufEx ∧ (bufEx.save true).1.modified = false) := by
  have h := C8_save_failure bufEx "f.txt" rfl
  exact ⟨h.1, h.2.2.2.2.1⟩

/-- C1 counterexample: starting from a buffer produced by one real edit
(`insert_char(0,'a')` on a fresh buffer, content `"a"`), the one-edit
sequence `[delete_char(1)]` is a no-op that records nothing, so calling
`undo()` once per edit pops the *earlier* insert instead and leaves content
`""` ≠ `"a"` — the pre-edit-sequence text is not restored. -/
theorem C1_counterexample :
    (undoN 1 (applyEdits noopBuf [EditOp.deleteChar 1])).content ≠
      noopBuf.content := by
  decide

/-- C2 counterexample: row 0 of `pageBuf` wraps into 3 visual sub-lines,
more than the page size 2, yet `move_page_down` from `(row 0, visual line
0)` lands on logical row 1 with `visual_line_index = 0` — the next logical
row, not a later visual sub-line of the same logical row. -/
theorem C2_counterexample :
    (pageView.calculateVisualLinesForRow pageBuf 0).length = 3 ∧
    2 < (pageView.calculateVisualLinesForRow pageBuf 0).length ∧
    (Cursor.movePageDown ⟨0, 0, 0, 0⟩ pageBuf pageView 2).row = 1 ∧
    (Cursor.movePageDown ⟨0, 0, 0, 0⟩ pageBuf pageView 2).row ≠ 0 := by
  decide

/-- C4 counterexample: on the line `['a', U+0300]` (combining mark of width
0) with a coherent cache entry, logical column 1 has visual column 1, but
`visual_to_logical_col` maps visual column 1 back to logical column 2 > 1 —
the cached branch overshoots past `c` when several logical columns share one
visual column. -/
theorem C4_counterexample :
    charWidth combChar = 0 ∧
    combViewCached.cacheEntry 0 =
      some (LineLayout.ofLine (stripEol ['a', combChar])
        (combViewCached.getAvailableWidth combBuf)) ∧
    View.logicalColToVisualCol ['a', combChar] 1 = 1 ∧
    ¬ (combViewCached.visualToLogicalCol combBuf 0 0
        (View.logicalColToVisualCol ['a', combChar] 1) ≤ 1) := by
  decide

/-- C9 counterexample: on the line `"\t"` the two branches of
`visual_to_logical_col` disagree at visual column 2 (inside the tab): the
cached branch (coherent cache entry present) returns 0, the fallback branch
(empty cache, all other view state identical) returns 1. -/
theorem C9_counterexample :
    tabViewCached.cacheEntry 0 =
      some (LineLayout.ofLine (stripEol ['\t'])
        (tabViewCached.getAvailableWidth tabBuf)) ∧
    tabViewEmpty.cacheEntry 0 = none ∧
    tabViewCached.getAvailableWidth tabBuf =
      tabViewEmpty.getAvailableWidth tabBuf ∧
    tabViewCached.visualToLogicalCol tabBuf 0 0 2 = 0 ∧
    tabViewEmpty.visualToLogicalCol tabBuf 0 0 2 = 1 ∧
    tabViewCached.visualToLogicalCol tabBuf 0 0 2 ≠
      tabViewEmpty.visualToLogicalCol tabBuf 0 0 2 := by
  decide

theorem pageDownGo_tall (h : Nat → Nat) (maxRow eff target fuel : Nat)
    (h1 : target < maxRow) (h2 : 0 < eff) (h3 : eff ≤ h target) :
    Cursor.pageDownGo h maxRow eff (fuel + 1) target 0 = target + 1 := by
  rw [Cursor.pageDownGo, if_pos ⟨h1, h2⟩]
  cases fuel with
  | zero => rfl
  | succ g =>
      rw [Cursor.pageDownGo, if_neg]
      rintro ⟨-, habs⟩
      omega

/-- C2 (amended): `move_page_down` accumulates visual sub-line counts row by
row, but always lands at the start of a logical row with
`visual_line_index = 0`; in particular, when the wrapped height of the
cursor's logical row alone is at least the page size, paging down advances
the cursor exactly one logical row past it (never onto a later visual
sub-line of the same row). -/
theorem C2_page_down_row_boundary (c : List Char) (v : View) (cur : Cursor)
    (eff : Nat) (hrow : cur.row < lineCount c - 1) (heff : 0 < eff)
    (htall : eff ≤ (v.calculateVisualLinesForRow c cur.row).length) :
    (cur.movePageDown c v eff).row = cur.row + 1 ∧
    (cur.movePageDown c v eff).visualLineIndex = 0 := by
  unfold Cursor.movePageDown Cursor.pageDownLoop
  obtain ⟨f, hf⟩ : ∃ f, lineCount c - 1 - cur.row = f + 1 :=
    ⟨lineCount c - 1 - cur.row - 1, by omega⟩
  dsimp only [Cursor.updateLogicalColFromVisual]
  rw [hf, pageDownGo_tall _ _ _ _ _ hrow heff htall]
  constructor
  · show (cur.row + 1) ⊓ (lineCount c - 1) = cur.row + 1
    rw [inf_eq_min, Nat.min_eq_left (by omega)]
  · rfl

/-- C2 witness: the page-down scenario with the 3-sub-line first row and
page size 2 lands on row 1, visual sub-line 0. -/
theorem C2_witness :
    (Cursor.movePageDown ⟨0, 0, 0, 0⟩ pageBuf pageView 2).row = 0 + 1 ∧
    (Cursor.movePageDown ⟨0, 0, 0, 0⟩ pageBuf pageView 2).visualLineIndex
      = 0 :=
  C2_page_down_row_boundary pageBuf pageView ⟨0, 0, 0, 0⟩ 2 (by decide)
    (by decide) (by decide)

theorem expandTabsGo_snd_head (vc : Nat) (l : List Char) :
    ∃ rest, (expandTabsGo vc l).2 = vc :: rest := by
  cases l with
  | nil => exact ⟨[], rfl⟩
  | cons ch r => exact ⟨(expandTabsGo (vc + colWidth ch) r).2, rfl⟩

theorem cachedScanGo_head_gt (l : List Char) (vc total idx lc : Nat)
    (hgt : vc > total) :
    View.cachedScanGo total idx lc (expandTabsGo vc l).2 = lc := by
  obtain ⟨rest, hr⟩ := expandTabsGo_snd_head vc l
  rw [hr]
  unfold View.cachedScanGo
  rw [if_pos hgt]

theorem cachedScanGo_boundary :
    ∀ (line : List Char) (vc idx lc c0 : Nat),
      (∀ ch ∈ line, 0 < colWidth ch) → c0 ≤ line.length →
      View.cachedScanGo (vc + View.logicalColToVisualCol line c0) idx lc
        (expandTabsGo vc line).2 = idx + c0 := by
  intro line
  induction line with
  | nil =>
      intro vc idx lc c0 _ hc0
      have hc00 : c0 = 0 := by simpa using hc0
      subst hc00
      show View.cachedScanGo (vc + 0) idx lc [vc] = idx
      unfold View.cachedScanGo
      rw [if_neg (by omega)]
      rfl
  | cons ch rest ih =>
      intro vc idx lc c0 hw hc0
      show View.cachedScanGo _ idx lc
        (vc :: (expandTabsGo (vc + colWidth ch) rest).2) = idx + c0
      cases c0 with
      | zero =>
          have h0 : View.logicalColToVisualCol (ch :: rest) 0 = 0 := rfl
          rw [h0]
          unfold View.cachedScanGo
          rw [if_neg (by omega)]
          exact cachedScanGo_head_gt rest (vc + colWidth ch) (vc + 0)
            (idx + 1) idx (by
              have := hw ch (List.mem_cons_self ch rest)
              omega)
      | succ c =>
          have hstep : View.logicalColToVisualCol (ch :: rest) (c + 1) =
              colWidth ch + View.logicalColToVisualCol rest c := rfl
          rw [hstep]
          unfold View.cachedScanGo
          rw [if_neg (by omega)]
          have ihh := ih (vc + colWidth ch) (idx + 1) idx c
            (fun x hx => hw x (List.mem_cons_of_mem ch hx))
            (by simp only [List.length_cons] at hc0; omega)
          have harith : vc + (colWidth ch + View.logicalColToVisualCol rest c)
              = vc + colWidth ch + View.logicalColToVisualCol rest c := by
            omega
          rw [harith, ihh]
          omega

theorem fallbackScanGo_boundary :
    ∀ (line : List Char) (cv lc c0 : Nat),
      (∀ ch ∈ line, 0 < colWidth ch) → c0 ≤ line.length →
      View.fallbackScanGo (cv + View.logicalColToVisualCol line c0) cv lc
        line = lc + c0 := by
  intro line
  induction line with
  | nil =>
      intro cv lc c0 _ hc0
      have hc00 : c0 = 0 := by simpa using hc0
      subst hc00
      rfl
  | cons ch rest ih =>
      intro cv lc c0 hw hc0
      cases c0 with
      | zero =>
          show View.fallbackScanGo (cv + 0) cv lc (ch :: rest) = lc
          unfold View.fallbackScanGo
          rw [if_pos (by omega)]
      | succ c =>
          have hstep : View.logicalColToVisualCol (ch :: rest) (c + 1) =
              colWidth ch + View.logicalColToVisualCol rest c := rfl
          rw [hstep]
          unfold View.fallbackScanGo
          rw [if_neg (by
            have := hw ch (List.mem_cons_self ch rest)
            omega)]
          have ihh := ih (cv + colWidth ch) (lc + 1) c
            (fun x hx => hw x (List.mem_cons_of_mem ch hx))
            (by simp only [List.length_cons] at hc0; omega)
          have harith : cv + (colWidth ch + View.logicalColToVisualCol rest c)
              = cv + colWidth ch + View.logicalColToVisualCol rest c := by
            omega
          rw [harith, ihh]
          omega

theorem calcVisualLines_of_none (v : View) (buf : List Char) (row : Nat)
    (line : List Char) (hrow : row < lineCount buf)
    (hnone : v.cacheEntry row = none) (hline : lineGet buf row = some line) :
    v.calculateVisualLinesForRow buf row =
      wrapLine (expandTabsAndBuildMap (stripEol line)).1
        (v.getAvailableWidth buf) := by
  unfold View.calculateVisualLinesForRow
  rw [if_neg (by omega), hnone, hline]

theorem vtlCachedLayout_boundary (line : List Char) (w vli vcol c : Nat)
    (hw : ∀ ch ∈ line, 0 < colWidth ch) (hc : c ≤ line.length)
    (hvli : vli < (LineLayout.ofLine line w).visualLines.length)
    (htot : View.accumWidths (LineLayout.ofLine line w).visualLines vli +
        min vcol
          (visualWidth ((LineLayout.ofLine line w).visualLines.getD vli []))
      = View.logicalColToVisualCol line c) :
    View.vtlCachedLayout (LineLayout.ofLine line w) vli vcol = c := by
  unfold View.vtlCachedLayout
  rw [if_neg (by omega)]
  show View.cachedScanGo
      (View.accumWidths (LineLayout.ofLine line w).visualLines vli +
        min vcol
          (visualWidth ((LineLayout.ofLine line w).visualLines.getD vli [])))
      0 0 (LineLayout.ofLine line w).logicalToVisual = c
  have hmap : (LineLayout.ofLine line w).logicalToVisual =
      (expandTabsGo 0 line).2 := rfl
  rw [hmap, htot]
  have h0 : View.logicalColToVisualCol line c =
      0 + View.logicalColToVisualCol line c := by omega
  rw [h0]
  have := cachedScanGo_boundary line 0 0 0 c hw hc
  simpa using this

theorem vtlFallback_boundary (v : View) (buf : List Char)
    (row c vli vcol : Nat) (line : List Char)
    (hline : lineGet buf row = some line)
    (hrow : row < lineCount buf)
    (hnone : v.cacheEntry row = none)
    (hw : ∀ ch ∈ stripEol line, 0 < colWidth ch)
    (hc : c ≤ (stripEol line).length)
    (hvli : vli < (wrapLine (expandTabsAndBuildMap (stripEol line)).1
        (v.getAvailableWidth buf)).length)
    (htot : View.accumWidths (wrapLine (expandTabsAndBuildMap
          (stripEol line)).1 (v.getAvailableWidth buf)) vli +
        min vcol (visualWidth ((wrapLine (expandTabsAndBuildMap
          (stripEol line)).1 (v.getAvailableWidth buf)).getD vli [])) =
      View.logicalColToVisualCol (stripEol line) c) :
    View.vtlFallback v buf row vli vcol = c := by
  unfold View.vtlFallback
  rw [calcVisualLines_of_none v buf row line hrow hnone hline]
  rw [if_neg (by omega)]
  show (match lineGet buf row with
    | some l => View.fallbackScanGo
        (View.accumWidths (wrapLine (expandTabsAndBuildMap
            (stripEol line)).1 (v.getAvailableWidth buf)) vli +
          min vcol (visualWidth ((wrapLine (expandTabsAndBuildMap
            (stripEol line)).1 (v.getAvailableWidth buf)).getD vli [])))
        0 0 (stripEol l)
    | none => 0) = c
  rw [hline, htot]
  have h0 : View.logicalColToVisualCol (stripEol line) c =
      0 + View.logicalColToVisualCol (stripEol line) c := by omega
  rw [h0]
  have := fallbackScanGo_boundary (stripEol line) 0 0 c hw hc
  simpa using this

/-- C4 (amended): on a row whose line has no zero-width characters (every
character, tab or not, occupies at least one display column), converting a
valid logical column `c` to its visual column and back through
`visual_to_logical_col` yields exactly `c`, on the cached branch and on the
fallback branch alike; `htot` states that the function's target visual
column (preceding sub-lines plus the clamped in-line column) is the visual
column of `c` as computed by `logical_col_to_visual_col`. -/
theorem C4_roundtrip (buf : List Char) (v : View) (row c vli vcol : Nat)
    (line : List Char)
    (hline : lineGet buf row = some line)
    (hrow : row < lineCount buf)
    (hw : ∀ ch ∈ stripEol line, 0 < colWidth ch)
    (hc : c ≤ (stripEol line).length)
    (hcache : v.cacheEntry row = none ∨
      v.cacheEntry row = some (LineLayout.ofLine (stripEol line)
        (v.getAvailableWidth buf)))
    (hvli : vli < (LineLayout.ofLine (stripEol line)
        (v.getAvailableWidth buf)).visualLines.length)
    (htot : View.accumWidths (LineLayout.ofLine (stripEol line)
          (v.getAvailableWidth buf)).visualLines vli +
        min vcol (visualWidth ((LineLayout.ofLine (stripEol line)
          (v.getAvailableWidth buf)).visualLines.getD vli [])) =
      View.logicalColToVisualCol (stripEol line) c) :
    v.visualToLogicalCol buf row vli vcol = c := by
  unfold View.visualToLogicalCol
  rcases hcache with hnone | hsome
  · rw [hnone]
    exact vtlFallback_boundary v buf row c vli vcol line hline hrow hnone
      hw hc hvli htot
  · rw [hsome]
    exact vtlCachedLayout_boundary (stripEol line) (v.getAvailableWidth buf)
      vli vcol c hw hc hvli htot

/-- C4 witness: on the plain line `"ab"` with no cache, logical column 1 has
visual column 1 and maps back to 1. -/
theorem C4_witness :
    tabViewEmpty.visualToLogicalCol "ab\n".toList 0 0 1 = 1 :=
  C4_roundtrip "ab\n".toList tabViewEmpty 0 1 0 1 "ab\n".toList
    (by decide) (by decide) (by decide) (by decide) (Or.inl (by decide))
    (by decide) (by decide)

theorem logicalColToVisualCol_unit :
    ∀ (l : List Char) (c : Nat), (∀ ch ∈ l, colWidth ch = 1) →
      c ≤ l.length → View.logicalColToVisualCol l c = c
  | l, 0, _, _ => by cases l <;> rfl
  | [], _ + 1, _, hc => by simp at hc
  | ch :: rest, c + 1, hw, hc => by
      show colWidth ch + View.logicalColToVisualCol rest c = c + 1
      rw [hw ch (List.mem_cons_self ch rest),
        logicalColToVisualCol_unit rest c
          (fun x hx => hw x (List.mem_cons_of_mem ch hx))
          (by simp only [List.length_cons] at hc; omega)]
      omega

theorem expandTabsGo_fst_noTab :
    ∀ (l : List Char) (vc : Nat), (∀ ch ∈ l, ch ≠ '\t') →
      (expandTabsGo vc l).1 = l
  | [], _, _ => rfl
  | ch :: rest, vc, hnt => by
      show (if ch = '\t' then List.replicate TAB_WIDTH ' ' else [ch]) ++
        (expandTabsGo (vc + colWidth ch) rest).1 = ch :: rest
      rw [if_neg (hnt ch (List.mem_cons_self ch rest)),
        expandTabsGo_fst_noTab rest (vc + colWidth ch)
          (fun x hx => hnt x (List.mem_cons_of_mem ch hx))]
      rfl

theorem wrapGo_flatten :
    ∀ (l cur : List Char) (curW maxW : Nat),
      (wrapGo maxW cur curW l).flatten = cur ++ l
  | [], cur, curW, maxW => by
      show (if cur.isEmpty then ([] : List (List Char)) else [cur]).flatten =
        cur ++ []
      by_cases hcur : cur.isEmpty
      · rw [if_pos hcur, List.isEmpty_iff.mp hcur]
        rfl
      · rw [if_neg hcur]
        simp
  | ch :: rest, cur, curW, maxW => by
      show (if curW + charWidth ch > maxW ∧ ¬ cur.isEmpty then
          cur :: wrapGo maxW [ch] (charWidth ch) rest
        else wrapGo maxW (cur ++ [ch]) (curW + charWidth ch) rest).flatten =
        cur ++ (ch :: rest)
      by_cases hbr : curW + charWidth ch > maxW ∧ ¬ cur.isEmpty
      · rw [if_pos hbr]
        show cur ++ (wrapGo maxW [ch] (charWidth ch) rest).flatten = _
        rw [wrapGo_flatten rest [ch] (charWidth ch) maxW]
        rfl
      · rw [if_neg hbr, wrapGo_flatten rest (cur ++ [ch]) _ maxW]
        simp

theorem wrapLine_flatten (l : List Char) (w : Nat) (hw : w ≠ 0) :
    (wrapLine l w).flatten = l := by
  unfold wrapLine
  rw [if_neg hw]
  have hflat := wrapGo_flatten l [] 0 w
  by_cases hr : (wrapGo w [] 0 l).isEmpty
  · rw [if_pos hr]
    rw [List.isEmpty_iff.mp hr] at hflat
    simpa using hflat.symm
  · rw [if_neg hr]
    simpa using hflat

theorem visualWidth_append (a b : List Char) :
    visualWidth (a ++ b) = visualWidth a + visualWidth b := by
  simp [visualWidth]

theorem visualWidth_flatten :
    ∀ L : List (List Char), visualWidth L.flatten = (L.map visualWidth).sum
  | [] => rfl
  | l :: ls => by
      show visualWidth (l ++ ls.flatten) = _
      rw [visualWidth_append, visualWidth_flatten ls]
      rfl

theorem visualWidth_unit (l : List Char) (hw : ∀ ch ∈ l, charWidth ch = 1) :
    visualWidth l = l.length := by
  induction l with
  | nil => rfl
  | cons ch rest ih =>
      show charWidth ch + visualWidth rest = rest.length + 1
      rw [hw ch (List.mem_cons_self ch rest),
        ih (fun x hx => hw x (List.mem_cons_of_mem ch hx))]
      omega

theorem accumWidths_succ (vlines : List (List Char)) (vli : Nat)
    (h : vli < vlines.length) :
    View.accumWidths vlines (vli + 1) =
      View.accumWidths vlines vli + visualWidth (vlines.getD vli []) := by
  have hx : vlines[vli]? = some vlines[vli] := List.getElem?_eq_getElem h
  have hgetD : vlines.getD vli [] = vlines[vli] := by
    simp [List.getD, List.get?_eq_getElem?, hx]
  unfold View.accumWidths
  rw [List.take_succ, hx, hgetD]
  simp only [List.map_append, List.sum_append, Option.toList_some,
    List.map_cons, List.map_nil, List.sum_cons, List.sum_nil]
  omega

theorem colWidth_unit_charWidth (ch : Char) (h : colWidth ch = 1) :
    charWidth ch = 1 ∧ ch ≠ '\t' := by
  unfold colWidth at h
  by_cases ht : ch = '\t'
  · rw [if_pos ht] at h
    exact absurd h (by decide)
  · rw [if_neg ht] at h
    exact ⟨h, ht⟩

/-- C9 (amended): `View::visual_to_logical_col` returns the same logical
column whether the row's (coherent) layout is present in the cache or
absent, provided every character of the line occupies exactly one display
column (no tabs, no wide and no zero-width characters) and the available
width is positive; `v1` has the cached layout, `v2` an empty slot, and both
views agree on the available width. -/
theorem C9_unit_width_agreement (buf : List Char) (v1 v2 : View)
    (row vli vcol : Nat) (line : List Char)
    (hline : lineGet buf row = some line)
    (hrow : row < lineCount buf)
    (hw : ∀ ch ∈ stripEol line, colWidth ch = 1)
    (hwidth : 0 < v1.getAvailableWidth buf)
    (hcache1 : v1.cacheEntry row = some (LineLayout.ofLine (stripEol line)
      (v1.getAvailableWidth buf)))
    (hcache2 : v2.cacheEntry row = none)
    (hcols : v2.getAvailableWidth buf = v1.getAvailableWidth buf) :
    v1.visualToLogicalCol buf row vli vcol =
      v2.visualToLogicalCol buf row vli vcol := by
  set n := stripEol line with hn
  set w := v1.getAvailableWidth buf with hwdef
  have hnotab : ∀ ch ∈ n, ch ≠ '\t' :=
    fun ch h => (colWidth_unit_charWidth ch (hw ch h)).2
  have hcw : ∀ ch ∈ n, charWidth ch = 1 :=
    fun ch h => (colWidth_unit_charWidth ch (hw ch h)).1
  have hdisp : (expandTabsAndBuildMap n).1 = n :=
    expandTabsGo_fst_noTab n 0 hnotab
  set vlines := wrapLine (expandTabsAndBuildMap n).1 w with hvl
  by_cases hvli : vli < vlines.length
  · -- both branches hit the scan; the total visual column is a boundary
    have hsum : (vlines.map visualWidth).sum = n.length := by
      rw [← visualWidth_flatten, hvl, wrapLine_flatten _ _ (by omega), hdisp,
        visualWidth_unit n hcw]
    have hstep := accumWidths_succ vlines vli hvli
    have hle : View.accumWidths vlines (vli + 1) ≤ n.length := by
      rw [← hsum]
      exact sum_map_take_le _ _ _
    set total := View.accumWidths vlines vli +
      min vcol (visualWidth (vlines.getD vli [])) with htdef
    have htle : total ≤ n.length := by
      have : min vcol (visualWidth (vlines.getD vli [])) ≤
          visualWidth (vlines.getD vli []) := Nat.min_le_right _ _
      omega
    have hboundary : View.accumWidths vlines vli +
        min vcol (visualWidth (vlines.getD vli [])) =
        View.logicalColToVisualCol n total := by
      rw [logicalColToVisualCol_unit n total hw htle]
    have hpos : ∀ ch ∈ n, 0 < colWidth ch := by
      intro ch h
      rw [hw ch h]
      omega
    have h1 : v1.visualToLogicalCol buf row vli vcol = total := by
      unfold View.visualToLogicalCol
      rw [hcache1]
      exact vtlCachedLayout_boundary n w vli vcol total hpos htle hvli
        hboundary
    have h2 : v2.visualToLogicalCol buf row vli vcol = total := by
      unfold View.visualToLogicalCol
      rw [hcache2]
      refine vtlFallback_boundary v2 buf row total vli vcol line hline hrow
        hcache2 hpos htle ?_ ?_
      · rw [hcols]
        exact hvli
      · rw [hcols]
        exact hboundary
    rw [h1, h2]
  · -- out-of-range visual line index: both branches return 0
    have h1 : v1.visualToLogicalCol buf row vli vcol = 0 := by
      unfold View.visualToLogicalCol
      rw [hcache1]
      show View.vtlCachedLayout (LineLayout.ofLine n w) vli vcol = 0
      unfold View.vtlCachedLayout
      rw [if_pos (by exact not_lt.mp hvli)]
    have h2 : v2.visualToLogicalCol buf row vli vcol = 0 := by
      unfold View.visualToLogicalCol
      rw [hcache2]
      show View.vtlFallback v2 buf row vli vcol = 0
      unfold View.vtlFallback
      rw [calcVisualLines_of_none v2 buf row line hrow hcache2 hline, hcols]
      rw [if_pos (by exact not_lt.mp hvli)]
    rw [h1, h2]

/-- C9 witness: on the plain line `"ab"`, the cached and fallback branches
agree (both views are over the same buffer; one has the coherent layout
cached, the other an empty cache). -/
theorem C9_witness :
    View.visualToLogicalCol
      { offsetRow := 0, showLineNumbers := false, screenRows := 5,
        screenCols := 11,
        lineLayoutCache := [some (LineLayout.ofLine "ab".toList 10)] }
      "ab".toList 0 0 1 =
    tabViewEmpty.visualToLogicalCol "ab".toList 0 0 1 :=
  C9_unit_width_agreement "ab".toList
    { offsetRow := 0, showLineNumbers := false, screenRows := 5,
      screenCols := 11,
      lineLayoutCache := [some (LineLayout.ofLine "ab".toList 10)] }
    tabViewEmpty 0 0 1 "ab".toList (by decide) (by decide) (by decide)
    (by decide) (by decide) (by decide) (by decide)

theorem modInv_applyOp (t : TrackedBuffer) (op : BufOp)
    (h : t.ModInv) : (t.applyOp op).ModInv := by
  unfold TrackedBuffer.ModInv at h ⊢
  cases op with
  | insertChar pos ch =>
      intro hmod
      simp [TrackedBuffer.applyOp, RopeBuffer.insertChar] at hmod
  | insertText pos text =>
      intro hmod
      simp [TrackedBuffer.applyOp, RopeBuffer.insert] at hmod
  | deleteChar pos =>
      intro hmod
      simp only [TrackedBuffer.applyOp] at hmod ⊢
      unfold RopeBuffer.deleteChar at hmod ⊢
      by_cases hc : pos < t.buf.content.length
      · rw [if_pos hc] at hmod
        simp at hmod
      · rw [if_neg hc] at hmod ⊢
        exact h hmod
  | deleteRange s e =>
      intro hmod
      simp only [TrackedBuffer.applyOp] at hmod ⊢
      unfold RopeBuffer.deleteRange at hmod ⊢
      by_cases hc : s < e ∧ s < t.buf.content.length
      · rw [if_pos hc] at hmod
        simp at hmod
      · rw [if_neg hc] at hmod ⊢
        exact h hmod
  | deleteLine row =>
      intro hmod
      simp only [TrackedBuffer.applyOp] at hmod ⊢
      unfold RopeBuffer.deleteLine at hmod ⊢
      by_cases hc : row < lineCount t.buf.content
      · rw [if_pos hc] at hmod
        simp at hmod
      · rw [if_neg hc] at hmod ⊢
        exact h hmod
  | undo =>
      intro hmod
      simp only [TrackedBuffer.applyOp] at hmod ⊢
      unfold RopeBuffer.undo at hmod ⊢
      cases hu : t.buf.history.undo with
      | none =>
          rw [hu] at hmod
          exact h hmod
      | some p =>
          obtain ⟨a, hist⟩ := p
          rw [hu] at hmod
          simp at hmod
  | redo =>
      intro hmod
      simp only [TrackedBuffer.applyOp] at hmod ⊢
      unfold RopeBuffer.redo at hmod ⊢
      cases hu : t.buf.history.redo with
      | none =>
          rw [hu] at hmod
          exact h hmod
      | some p =>
          obtain ⟨a, hist⟩ := p
          rw [hu] at hmod
          simp at hmod
  | save ok =>
      intro hmod
      simp only [TrackedBuffer.applyOp] at hmod ⊢
      unfold RopeBuffer.save at hmod ⊢
      cases hp : t.buf.filePath with
      | none =>
          rw [hp] at hmod
          exact h hmod
      | some path =>
          rw [hp] at hmod
          cases ok with
          | false => exact h hmod
          | true => rfl
  | saveAs path ok =>
      intro hmod
      simp only [TrackedBuffer.applyOp] at hmod ⊢
      unfold RopeBuffer.saveAs at hmod ⊢
      cases ok with
      | false => exact h hmod
      | true => rfl
  | setReadEncoding enc =>
      intro hmod
      simp only [TrackedBuffer.applyOp] at hmod ⊢
      unfold RopeBuffer.setReadEncoding at hmod ⊢
      exact h hmod
  | setSaveEncoding enc =>
      intro hmod
      simp [TrackedBuffer.applyOp, RopeBuffer.setSaveEncoding] at hmod
  | changeEncoding enc =>
      intro hmod
      simp only [TrackedBuffer.applyOp] at hmod ⊢
      unfold RopeBuffer.changeEncoding at hmod ⊢
      exact h hmod
  | reload enc ok d =>
      intro hmod
      simp only [TrackedBuffer.applyOp] at hmod ⊢
      unfold RopeBuffer.reload at hmod ⊢
      cases hp : t.buf.filePath with
      | none =>
          rw [hp] at hmod
          exact h hmod
      | some path =>
          rw [hp] at hmod
          cases ok with
          | false => exact h hmod
          | true => rfl

theorem modInv_applyOps :
    ∀ (ops : List BufOp) (t : TrackedBuffer), t.ModInv →
      (t.applyOps ops).ModInv
  | [], _, h => h
  | op :: ops, t, h =>
      modInv_applyOps ops (t.applyOp op) (modInv_applyOp t op h)

/-- C6: starting from any state satisfying the modified-flag invariant (in
particular any freshly created or freshly loaded buffer, where the
last-saved reference content is the buffer content itself), after any
sequence of buffer operations — edits, undo/redo, saves with either outcome,
encoding changes and reloads — a buffer whose content differs from the
content at the last successful save (or load) has `modified = true`. -/
theorem C6_modified_invariant (t : TrackedBuffer) (ops : List BufOp)
    (h : t.ModInv) :
    (TrackedBuffer.applyOps t ops).buf.content ≠
      (TrackedBuffer.applyOps t ops).savedContent →
    (TrackedBuffer.applyOps t ops).buf.modified = true := by
  intro hne
  cases hmod : (TrackedBuffer.applyOps t ops).buf.modified with
  | false => exact absurd (modInv_applyOps ops t h hmod) hne
  | true => rfl

/-- C6 witness: loading `"hi"` from disk, inserting a character and then
failing a save leaves a buffer whose content differs from the saved content,
and the modified flag is set. -/
theorem C6_witness :
    (TrackedBuffer.applyOps
      (TrackedBuffer.ofLoad
        (RopeBuffer.fromFileExisting "f.txt" "hi".toList "UTF-8" "UTF-8"))
      [BufOp.insertChar 0 'x', BufOp.save false]).buf.modified = true :=
  C6_modified_invariant
    (TrackedBuffer.ofLoad
      (RopeBuffer.fromFileExisting "f.txt" "hi".toList "UTF-8" "UTF-8"))
    [BufOp.insertChar 0 'x', BufOp.save false]
    (by intro hmod; rfl) (by decide)

theorem applyEdit_spec (b : RopeBuffer) (e : EditOp)
    (heff : editEffective b e = true) (hg : b.inUndoRedo = false) :
    (applyEdit b e).content =
      RopeBuffer.redoAction (recordedAction b e) b.content ∧
    RopeBuffer.undoAction (recordedAction b e) (applyEdit b e).content =
      b.content ∧
    (applyEdit b e).history = b.history.push (recordedAction b e) ∧
    (applyEdit b e).inUndoRedo = false := by
  cases e with
  | insertChar pos ch =>
      simp only [applyEdit, recordedAction]
      unfold RopeBuffer.insertChar
      rw [hg]
      refine ⟨rfl, ?_, rfl, rfl⟩
      show removeRange (min pos b.content.length)
        (min pos b.content.length + [ch].length)
        (insertAt (min pos b.content.length) [ch] b.content) = b.content
      exact removeRange_insertAt [ch] _ b.content (Nat.min_le_right _ _)
  | insertText pos text =>
      simp only [applyEdit, recordedAction]
      unfold RopeBuffer.insert
      rw [hg]
      refine ⟨rfl, ?_, rfl, rfl⟩
      exact removeRange_insertAt text _ b.content (Nat.min_le_right _ _)
  | deleteChar pos =>
      simp only [editEffective] at heff
      have hlt : pos < b.content.length := of_decide_eq_true heff
      simp only [applyEdit, recordedAction]
      unfold RopeBuffer.deleteChar
      rw [if_pos hlt, hg]
      refine ⟨?_, ?_, rfl, rfl⟩
      · show removeRange pos (pos + 1) b.content =
          removeRange pos (pos + (sliceL pos (pos + 1) b.content).length)
            b.content
        rw [sliceL_length]
        congr 1
        omega
      · show RopeBuffer.undoAction _ (removeRange pos (pos + 1) b.content)
          = b.content
        exact insertAt_sliceL_removeRange pos (pos + 1) b.content
          (by omega) (by omega)
  | deleteRange s t =>
      simp only [editEffective] at heff
      have hlt : s < t ∧ s < b.content.length := of_decide_eq_true heff
      simp only [applyEdit, recordedAction]
      unfold RopeBuffer.deleteRange
      rw [if_pos hlt, hg]
      refine ⟨rfl, ?_, rfl, rfl⟩
      exact insertAt_sliceL_removeRange s (min t b.content.length) b.content
        (by omega) (by omega)
  | deleteLine row =>
      simp only [editEffective] at heff
      have hlt : row < lineCount b.content := of_decide_eq_true heff
      simp only [applyEdit, recordedAction]
      unfold RopeBuffer.deleteLine
      rw [if_pos hlt, hg]
      refine ⟨rfl, ?_, rfl, rfl⟩
      have hse : lineToChar b.content row ≤
          (if row + 1 < lineCount b.content
           then lineToChar b.content (row + 1) else b.content.length) := by
        by_cases hrr : row + 1 < lineCount b.content
        · rw [if_pos hrr]
          exact lineToChar_mono b.content (by omega)
        · rw [if_neg hrr]
          exact lineToChar_le_length b.content row
      have hec : (if row + 1 < lineCount b.content
          then lineToChar b.content (row + 1) else b.content.length) ≤
          b.content.length := by
        by_cases hrr : row + 1 < lineCount b.content
        · rw [if_pos hrr]
          exact lineToChar_le_length b.content (row + 1)
        · rw [if_neg hrr]
      exact insertAt_sliceL_removeRange _ _ b.content hse hec

theorem RChain_append :
    ∀ (xs : List Action) (c1 m c0 : List Char) (ys : List Action),
      RChain c1 xs m → RChain m ys c0 → RChain c1 (xs ++ ys) c0
  | [], c1, m, c0, ys, hx, hy => by
      have : m = c1 := hx
      subst this
      exact hy
  | a :: xs, c1, m, c0, ys, hx, hy => by
      obtain ⟨hinv, hrest⟩ := hx
      exact ⟨hinv, RChain_append xs _ m c0 ys hrest hy⟩

theorem FChain_append :
    ∀ (xs : List Action) (c0 m c1 : List Char) (ys : List Action),
      FChain c0 xs m → FChain m ys c1 → FChain c0 (xs ++ ys) c1
  | [], c0, m, c1, ys, hx, hy => by
      have : m = c0 := hx
      subst this
      exact hy
  | a :: xs, c0, m, c1, ys, hx, hy =>
      FChain_append xs _ m c1 ys hx hy

theorem RChain_to_FChain :
    ∀ (ras : List Action) (c1 c0 : List Char),
      RChain c1 ras c0 → FChain c0 ras.reverse c1
  | [], c1, c0, h => by
      have : c0 = c1 := h
      subst this
      rfl
  | a :: ras, c1, c0, h => by
      obtain ⟨hinv, hrest⟩ := h
      have ih := RChain_to_FChain ras _ c0 hrest
      rw [List.reverse_cons]
      refine FChain_append ras.reverse c0 (RopeBuffer.undoAction a c1) c1
        [a] ih ?_
      show FChain (RopeBuffer.redoAction a (RopeBuffer.undoAction a c1)) [] c1
      rw [hinv]
      rfl

theorem applyEdits_chain :
    ∀ (es : List EditOp) (b : RopeBuffer),
      allEffective b es = true → b.inUndoRedo = false →
      b.history.undoStack.length + es.length ≤ b.history.maxSize →
      ∃ ras : List Action,
        ras.length = es.length ∧
        (applyEdits b es).history.undoStack =
          ras ++ b.history.undoStack ∧
        (applyEdits b es).history.maxSize = b.history.maxSize ∧
        (applyEdits b es).inUndoRedo = false ∧
        RChain (applyEdits b es).content ras b.content
  | [], b, _, hg, _ => ⟨[], rfl, rfl, rfl, hg, rfl⟩
  | e :: es, b, heff, hg, hcap => by
      have heffs : editEffective b e = true ∧
          allEffective (applyEdit b e) es = true := by
        simpa [allEffective, Bool.and_eq_true] using heff
      obtain ⟨hspec1, hspec2, hspec3, hspec4⟩ :=
        applyEdit_spec b e heffs.1 hg
      set a := recordedAction b e with ha
      have hlt : b.history.undoStack.length < b.history.maxSize := by
        simp only [List.length_cons] at hcap
        omega
      have hstack1 : (applyEdit b e).history.undoStack =
          a :: b.history.undoStack := by
        rw [hspec3]
        exact History.push_undoStack_of_lt b.history a hlt
      have hmax1 : (applyEdit b e).history.maxSize = b.history.maxSize := by
        rw [hspec3]
        exact History.push_maxSize b.history a
      have hcap1 : (applyEdit b e).history.undoStack.length + es.length ≤
          (applyEdit b e).history.maxSize := by
        rw [hstack1, hmax1]
        simp only [List.length_cons] at hcap ⊢
        omega
      obtain ⟨ras', hlen', hstack', hmax', hg', hchain'⟩ :=
        applyEdits_chain es (applyEdit b e) heffs.2 hspec4 hcap1
      refine ⟨ras' ++ [a], ?_, ?_, ?_, hg', ?_⟩
      · simp [hlen']
      · show (applyEdits (applyEdit b e) es).history.undoStack = _
        rw [hstack', hstack1, List.append_assoc]
        rfl
      · show (applyEdits (applyEdit b e) es).history.maxSize = _
        rw [hmax', hmax1]
      · show RChain (applyEdits (applyEdit b e) es).content
          (ras' ++ [a]) b.content
        refine RChain_append ras' _ (applyEdit b e).content b.content [a]
          hchain' ?_
        refine ⟨?_, ?_⟩
        · rw [hspec2, ← hspec1]
        · show b.content = RopeBuffer.undoAction a (applyEdit b e).content
          rw [hspec2]

theorem undo_of_stack (b : RopeBuffer) (a : Action) (rest : List Action)
    (hstack : b.history.undoStack = a :: rest) :
    (b.undo).1.content = RopeBuffer.undoAction a b.content ∧
    (b.undo).1.history.undoStack = rest ∧
    (b.undo).1.history.redoStack = a :: b.history.redoStack ∧
    (b.undo).1.history.maxSize = b.history.maxSize := by
  have hhu : b.history.undo = some (a, { b.history with
      undoStack := rest,
      redoStack := a :: b.history.redoStack }) := by
    unfold History.undo
    rw [hstack]
  unfold RopeBuffer.undo
  rw [hhu]
  exact ⟨rfl, rfl, rfl, rfl⟩

theorem redo_of_stack (b : RopeBuffer) (a : Action) (rest : List Action)
    (hstack : b.history.redoStack = a :: rest) :
    (b.redo).1.content = RopeBuffer.redoAction a b.content ∧
    (b.redo).1.history.redoStack = rest := by
  have hhr : b.history.redo = some (a, { b.history with
      redoStack := rest,
      undoStack := a :: b.history.undoStack }) := by
    unfold History.redo
    rw [hstack]
  unfold RopeBuffer.redo
  rw [hhr]
  exact ⟨rfl, rfl⟩

theorem undoN_spec :
    ∀ (ras : List Action) (b : RopeBuffer) (c0 : List Char)
      (tail : List Action),
      RChain b.content ras c0 → b.history.undoStack = ras ++ tail →
      (undoN ras.length b).content = c0 ∧
      (undoN ras.length b).history.undoStack = tail ∧
      (undoN ras.length b).history.redoStack =
        ras.reverse ++ b.history.redoStack
  | [], b, c0, tail, hchain, hstack => by
      have : c0 = b.content := hchain
      subst this
      exact ⟨rfl, by simpa using hstack, rfl⟩
  | a :: ras, b, c0, tail, hchain, hstack => by
      obtain ⟨hinv, hrest⟩ := hchain
      obtain ⟨hp1, hp2, hp3, _⟩ := undo_of_stack b a (ras ++ tail) hstack
      rw [← hp1] at hrest
      have ih := undoN_spec ras (b.undo).1 c0 tail hrest hp2
      refine ⟨ih.1, ih.2.1, ?_⟩
      show (undoN ras.length (b.undo).1).history.redoStack = _
      rw [ih.2.2, hp3, List.reverse_cons, List.append_assoc]
      rfl

theorem redoN_spec :
    ∀ (as : List Action) (b : RopeBuffer) (c1 : List Char)
      (rtail : List Action),
      FChain b.content as c1 → b.history.redoStack = as ++ rtail →
      (redoN as.length b).content = c1
  | [], b, c1, _, hchain, _ => by
      have : c1 = b.content := hchain
      subst this
      rfl
  | a :: as, b, c1, rtail, hchain, hstack => by
      obtain ⟨hp1, hp2⟩ := redo_of_stack b a (as ++ rtail) hstack
      have hchain' : FChain ((b.redo).1.content) as c1 := by
        rw [hp1]
        exact hchain
      show (redoN as.length (b.redo).1).content = c1
      exact redoN_spec as (b.redo).1 c1 rtail hchain' hp2

/-- C1 (amended): for every edit sequence in which each edit actually
mutates the buffer (inserts unconditionally; deletes whose guard holds) and
which fits in the remaining history capacity (current undo-stack depth plus
number of edits at most `max_size`, e.g. at most 1000 edits on a fresh
buffer), performing undo exactly once per edit restores the
pre-edit-sequence content, and then performing redo the same number of times
restores the post-edit-sequence content.  Without the effectiveness
hypothesis a no-op edit makes the undos over-pop older history
(`C1_counterexample`), and beyond the capacity the oldest actions are
evicted and cannot be undone. -/
theorem C1_undo_redo_inverse (b : RopeBuffer) (es : List EditOp)
    (heff : allEffective b es = true)
    (hg : b.inUndoRedo = false)
    (hcap : b.history.undoStack.length + es.length ≤ b.history.maxSize) :
    (undoN es.length (applyEdits b es)).content = b.content ∧
    (redoN es.length (undoN es.length (applyEdits b es))).content =
      (applyEdits b es).content := by
  obtain ⟨ras, hlen, hstack, _, _, hchain⟩ :=
    applyEdits_chain es b heff hg hcap
  have hundo := undoN_spec ras (applyEdits b es) b.content
    b.history.undoStack hchain hstack
  have hF := RChain_to_FChain ras (applyEdits b es).content b.content hchain
  have hF' : FChain (undoN ras.length (applyEdits b es)).content
      ras.reverse (applyEdits b es).content := by
    rw [hundo.1]
    exact hF
  have hredo := redoN_spec ras.reverse
    (undoN ras.length (applyEdits b es)) (applyEdits b es).content
    ((applyEdits b es).history.redoStack) hF' (by rw [hundo.2.2])
  rw [← hlen]
  refine ⟨hundo.1, ?_⟩
  have hrl : ras.reverse.length = ras.length := by simp
  rw [hrl] at hredo
  exact hredo

/-- C1 witness: inserting `"hi"` one character at a time into a fresh buffer
and undoing twice yields the empty content again; redoing twice restores
`"hi"`. -/
theorem C1_witness :
    (undoN 2 (applyEdits (RopeBuffer.new "UTF-8")
      [EditOp.insertChar 0 'h', EditOp.insertChar 1 'i'])).content =
      (RopeBuffer.new "UTF-8").content ∧
    (redoN 2 (undoN 2 (applyEdits (RopeBuffer.new "UTF-8")
      [EditOp.insertChar 0 'h', EditOp.insertChar 1 'i']))).content =
      (applyEdits (RopeBuffer.new "UTF-8")
        [EditOp.insertChar 0 'h', EditOp.insertChar 1 'i']).content :=
  C1_undo_redo_inverse (RopeBuffer.new "UTF-8")
    [EditOp.insertChar 0 'h', EditOp.insertChar 1 'i']
    (by decide) rfl (by decide)

end Wedi
